import Mathlib

/-!
# shell-base: the read / parse / dispatch loop of `new-shell.c`

A shallow embedding of `src/new-shell.c`.

* Bytes are natural numbers, C strings are lists of bytes, a `char*` into the
  line buffer is an offset into the list that holds the buffer, `NULL` is
  `none`.
* A memory access outside an array is a `Fault`; every function that touches
  memory returns `Except Fault _`.
* Calls into libc and the kernel (`printf`, `fork`, `execv`, `wait`) are
  recorded as a list of `Event`s, `exit` as the outcome of the run; what the
  kernel answers is a parameter. A run is the run of one process: after
  `fork` the parent is the run in which `fork` returned a pid, the child the
  run in which it returned 0.
-/

set_option maxRecDepth 100000

namespace Shell

/-! ## Constants -/

/-- `#define MAXARGS 16`. -/
abbrev MAXARGS : Nat := 16

/-- `#define MAXLINE 256`. -/
abbrev MAXLINE : Nat := 256

/-- The space character `' '`. -/
abbrev SP : Nat := 32

/-- The line terminator `'\n'`. -/
abbrev NL : Nat := 10

/-! ## Memory faults -/

/-- An access that leaves the array it is made in (undefined behaviour in C).
`loopBound` is the exhaustion of the iteration bound of `parseLoop`; it is
never returned by `parse_cmd` (`parse_cmd_bound_free`). -/
inductive Fault where
  | bufRead (i : Int)
  | bufWrite (i : Int)
  | argvWrite (i : Nat)
  | nullDeref
  | loopBound
  deriving DecidableEq, Repr

deriving instance DecidableEq for Except

/-! ## libc string functions on the line buffer -/

/-- Scan of `strlen`: `cs` is the buffer from offset `i` on; the result is the
offset of the first NUL byte. Running off the buffer is a fault. -/
def strlenAux : List Nat → Nat → Except Fault Nat
  | [], i => .error (.bufRead i)
  | c :: cs, i => if c = 0 then .ok i else strlenAux cs (i + 1)

/-- `strlen(buf + p)`, as the offset of the terminating NUL in `buf`. -/
def strend (buf : List Nat) (p : Nat) : Except Fault Nat :=
  strlenAux (buf.drop p) p

/-- Scan of `strchr(_, ch)`: the offset of the first byte equal to `ch`, or
`none` (the C `NULL`) when the terminating NUL comes first. -/
def strchrAux (ch : Nat) : List Nat → Nat → Except Fault (Option Nat)
  | [], i => .error (.bufRead i)
  | c :: cs, i =>
    if c = ch then .ok (some i)
    else if c = 0 then .ok none
    else strchrAux ch cs (i + 1)

/-- `strchr(buf + p, ch)`, the result being an offset into `buf`. -/
def strchr (buf : List Nat) (p : Nat) (ch : Nat) : Except Fault (Option Nat) :=
  strchrAux ch (buf.drop p) p

/-- The loop `while (buf && (*buf == ' ')) ++buf;` over the buffer from offset
`i` on. The pointer is never null, so only `*buf == ' '` decides. -/
def skipAux : List Nat → Nat → Except Fault Nat
  | [], i => .error (.bufRead i)
  | c :: cs, i => if c = SP then skipAux cs (i + 1) else .ok i

/-- `while (buf && (*buf == ' ')) ++buf;` started at offset `p`. -/
def skipSpaces (buf : List Nat) (p : Nat) : Except Fault Nat :=
  skipAux (buf.drop p) p

/-- The C string that starts at offset `p` of `buf`: the bytes up to the
first NUL. -/
def cstr (buf : List Nat) (p : Nat) : List Nat :=
  (buf.drop p).takeWhile (fun c => c ≠ 0)

/-! ## parse_cmd -/

/-- What `parse_cmd` leaves behind: the line buffer, the argument vector
(offsets into the buffer, `none` for `NULL`) and `*argc`. -/
structure Parsed where
  buf : List Nat
  argv : List (Option Nat)
  argc : Nat
  deriving DecidableEq, Repr

/-- The loop `while ((del = strchr(buf, ' '))) { ... }` of `parse_cmd`
(lines 92-98). `p` is the pointer `buf`; the first argument bounds the number
of iterations. -/
def parseLoop : Nat → List Nat → Nat → List (Option Nat) → Nat → Except Fault Parsed
  | 0, _, _, _, _ => .error .loopBound
  | fuel + 1, buf, p, argv, argc =>
    match strchr buf p SP with
    | .error e => .error e
    | .ok none => .ok ⟨buf, argv, argc⟩
    | .ok (some del) =>
      -- *del = '\0';
      let buf1 := buf.set del 0
      -- argv[(*argc)++] = buf;
      if argc < argv.length then
        let argv1 := argv.set argc (some p)
        -- buf = del + 1; while (buf && (*buf == ' ')) ++buf;
        match skipSpaces buf1 (del + 1) with
        | .error e => .error e
        | .ok p1 => parseLoop fuel buf1 p1 argv1 (argc + 1)
      else .error (.argvWrite argc)

/-- `parse_cmd(buf, argv, &argc)` (lines 86-100). `buf` is the whole line
buffer, `argv` the whole argument vector as `main` declares them. -/
def parse_cmd (buf : List Nat) (argv : List (Option Nat)) : Except Fault Parsed :=
  -- *argc = 0; buf[strlen(buf) - 1] = ' ';
  match strend buf 0 with
  | .error e => .error e
  | .ok n =>
    if n = 0 then .error (.bufWrite (-1))
    else
      let buf1 := buf.set (n - 1) SP
      -- while (buf && (*buf == ' ')) ++buf;
      match skipSpaces buf1 0 with
      | .error e => .error e
      | .ok p =>
        match parseLoop buf.length buf1 p argv 0 with
        | .error e => .error e
        | .ok r =>
          -- argv[*argc] = NULL;
          if r.argc < r.argv.length then .ok ⟨r.buf, r.argv.set r.argc none, r.argc⟩
          else .error (.argvWrite r.argc)

/-- The argument vector as strings: the entries `argv[0] .. argv[argc]`, each
pointer replaced by the C string it points to, `none` for `NULL`. -/
def argvStrings (r : Parsed) : List (Option (List Nat)) :=
  (r.argv.take (r.argc + 1)).map (Option.map (cstr r.buf))

/-- The tokens: the C strings `argv[0] .. argv[argc - 1]` point to. -/
def tokens (r : Parsed) : List (List Nat) :=
  (r.argv.take r.argc).filterMap (Option.map (cstr r.buf))

/-! ## The splitting the specification describes -/

/-- Maximal runs of non-space bytes, left to right; `cur` is the run being
read. -/
def runsFrom (cur : List Nat) : List Nat → List (List Nat)
  | [] => if cur = [] then [] else [cur]
  | c :: cs =>
    if c = SP then (if cur = [] then runsFrom [] cs else cur :: runsFrom [] cs)
    else runsFrom (cur ++ [c]) cs

/-- The maximal runs of non-space characters of `s`, in their order. -/
def spaceRuns (s : List Nat) : List (List Nat) := runsFrom [] s

/-- The text `u` is a sequence of tokens, each non-empty, free of spaces and
NULs, and followed by one space and then any number of spaces. -/
inductive Text : List Nat → List (List Nat) → Prop where
  | nil : Text [] []
  | cons (tok sp u : List Nat) (toks : List (List Nat)) :
      tok ≠ [] → SP ∉ tok → 0 ∉ tok → (∀ c ∈ sp, c = SP) → Text u toks →
      Text (tok ++ SP :: (sp ++ u)) (tok :: toks)

/-- The bytes of an ASCII string. -/
def bytes (s : String) : List Nat := s.toList.map Char.toNat

/-! ## Processes: events and outcomes -/

/-- A call out of the program, as the running process sees it. -/
inductive Event where
  /-- `printf` of these bytes on the standard output. -/
  | out (s : List Nat)
  /-- `fprintf(stderr, ...)` of these bytes. -/
  | err (s : List Nat)
  /-- The call `fork()` and the value it returned in this process. -/
  | fork (pid : Int)
  /-- The call `execv(path, argv)`, the vector given as its strings. -/
  | execv (path : List Nat) (args : List (List Nat))
  /-- The call `wait(NULL)`. -/
  | wait
  deriving DecidableEq, Repr

/-- How a piece of the program ends in the running process. -/
inductive Outcome (α : Type) where
  /-- It returned to its caller. -/
  | ret (a : α)
  /-- The process called `exit(status)`. -/
  | exited (status : Int)
  /-- The process image was replaced: `execv` did not return. -/
  | replaced
  /-- Undefined behaviour. -/
  | fault (f : Fault)
  deriving DecidableEq, Repr

/-- The calls made, in order, and how the run ended. -/
structure Run (α : Type) where
  trace : List Event
  outcome : Outcome α
  deriving DecidableEq, Repr

/-- Sequencing: `f` runs only when `x` returned. -/
def Run.bind {α β : Type} (x : Run α) (f : α → Run β) : Run β :=
  match x.outcome with
  | .ret a => ⟨x.trace ++ (f a).trace, (f a).outcome⟩
  | .exited s => ⟨x.trace, .exited s⟩
  | .replaced => ⟨x.trace, .replaced⟩
  | .fault e => ⟨x.trace, .fault e⟩

/-- A run that makes no call and returns `a`. -/
def Run.pure {α : Type} (a : α) : Run α := ⟨[], .ret a⟩

/-- A memory-checked computation as a run. -/
def Run.ofExcept {α : Type} : Except Fault α → Run α
  | .ok a => ⟨[], .ret a⟩
  | .error e => ⟨[], .fault e⟩

/-! ## read_cmd -/

/-- The standard input: the bytes still to come, and whether the stream ends
in a read error rather than in end-of-file. -/
structure Stdin where
  data : List Nat
  failing : Bool
  deriving DecidableEq, Repr

/-- The characters one `fgets` call with room for `n` characters takes from
the stream, and what stays: it stops after a line terminator, after `n`
characters, or at the end of the stream. -/
def fgetsChars : Nat → List Nat → List Nat × List Nat
  | 0, s => ([], s)
  | _ + 1, [] => ([], [])
  | n + 1, c :: cs =>
    if c = NL then ([c], cs)
    else ((c :: (fgetsChars n cs).1), (fgetsChars n cs).2)

/-- The prompt `">>> "`. -/
def promptText : List Nat := bytes ">>> "

/-- `read_cmd(buf)` (lines 47-51): print the prompt, then
`fgets(buf, MAXLINE, stdin)`; `exit(0)` when `fgets` returns `NULL` (nothing
read before the end of the stream, or a read error). -/
def read_cmd (buf : List Nat) (inp : Stdin) : Run (List Nat × Stdin) :=
  let taken := (fgetsChars (MAXLINE - 1) inp.data).1
  let rest := (fgetsChars (MAXLINE - 1) inp.data).2
  let atEnd := rest = [] ∧ taken.getLast? ≠ some NL ∧ taken.length < MAXLINE - 1
  if taken = [] ∨ (atEnd ∧ inp.failing = true) then
    ⟨[.out promptText], .exited 0⟩
  else if buf.length < taken.length + 1 then
    ⟨[.out promptText], .fault (.bufWrite buf.length)⟩
  else
    ⟨[.out promptText], .ret (taken ++ 0 :: buf.drop (taken.length + 1), ⟨rest, inp.failing⟩)⟩

/-! ## Fork, Execv -/

/-- `Fork()` (lines 58-67); `pid` is what `fork()` returns in this process. -/
def Fork (pid : Int) : Run Int :=
  if pid < 0 then
    ⟨[.fork pid, .err (bytes "fork error... terminating shell.\n")], .exited 0⟩
  else ⟨[.fork pid], .ret pid⟩

/-- The strings of a `NULL`-terminated vector of pointers into `buf`. -/
def vectorStrings (buf : List Nat) (argv : List (Option Nat)) : List (List Nat) :=
  (argv.takeWhile Option.isSome).filterMap (Option.map (cstr buf))

/-- `Execv(path, argv)` (lines 73-78); `ok` tells for which paths `execv`
replaces the image. When it fails it returns `-1`, and the diagnostic prints
`*argv`. -/
def Execv (buf : List Nat) (path : Nat) (argv : List (Option Nat))
    (ok : List Nat → Bool) : Run Unit :=
  if ok (cstr buf path) = true then ⟨[.execv (cstr buf path) (vectorStrings buf argv)], .replaced⟩
  else
    match argv.head? with
    | some (some q) =>
      ⟨[.execv (cstr buf path) (vectorStrings buf argv),
        .err (cstr buf q ++ bytes ": unknown command.\n")], .exited 0⟩
    | _ => ⟨[.execv (cstr buf path) (vectorStrings buf argv)], .fault .nullDeref⟩

/-! ## builtin_cmd, exec_cmd -/

/-- The banner of `help` (lines 118-131). -/
def helpText : List Nat :=
  bytes "************************** Shell **************************\n" ++
  bytes "Built-in commands:\n" ++
  bytes "\thelp\n" ++
  bytes "\texit\n" ++
  bytes "\twhoami\n" ++
  bytes "\nExternal programs:\n" ++
  bytes "\tTyping in the name of a program (e.g. prog1 \n\tor ./prog1) assumes the working directory\n" ++
  bytes "\tto be where the shell executable is located.\n" ++
  bytes "\tOtherwise an absolute path must be provided.\n" ++
  bytes "***********************************************************\n"

/-- `builtin_cmd(argv)` (lines 108-137); `user` is `getenv("USER")`, `none`
when the variable is unset: `printf("%s\n", NULL)` is undefined behaviour. -/
def builtin_cmd (buf : List Nat) (argv : List (Option Nat)) (user : Option (List Nat)) : Run Int :=
  match argv.head? with
  | some (some p) =>
    if cstr buf p = bytes "exit" then ⟨[], .exited 0⟩
    else if cstr buf p = bytes "whoami" then
      match user with
      | some u => ⟨[.out (u ++ [NL])], .ret 1⟩
      | none => ⟨[], .fault .nullDeref⟩
    else if cstr buf p = bytes "help" then ⟨[.out helpText], .ret 1⟩
    else ⟨[], .ret 0⟩
  | _ => ⟨[], .fault .nullDeref⟩

/-- `exec_cmd(argv, argc)` (lines 139-150). `pid` is what `fork()` returns in
this process if it is called, `ok` the paths for which `execv` succeeds. -/
def exec_cmd (buf : List Nat) (argv : List (Option Nat)) (argc : Nat)
    (user : Option (List Nat)) (pid : Int) (ok : List Nat → Bool) : Run Unit :=
  -- if (argc == 0 || builtin_cmd(argv)) return;
  if argc = 0 then Run.pure ()
  else
    (builtin_cmd buf argv user).bind fun b =>
      if b ≠ 0 then Run.pure ()
      else
        -- pid_t pid = Fork();
        (Fork pid).bind fun pid =>
          if pid = 0 then
            match argv.head? with
            | some (some p) => Execv buf p argv ok
            | _ => ⟨[], .fault .nullDeref⟩
          else ⟨[.wait], .ret ()⟩

/-! ## main -/

/-- What the environment answers: `getenv("USER")`, what `fork()` returns in
this process when it is called in the `n`-th pass of the loop, and whether
`execv` of a path succeeds. -/
structure Os where
  user : Option (List Nat)
  forkRet : Nat → Int
  execvOk : List Nat → Bool

/-- The locals of `main` and the standard input, between two passes. -/
structure ShellState where
  buf : List Nat
  argv : List (Option Nat)
  argc : Nat
  stdin : Stdin
  pass : Nat
  deriving DecidableEq, Repr

/-- One pass of `for (;;)` in `main` (lines 31-33). -/
def iteration (os : Os) (st : ShellState) : Run ShellState :=
  (read_cmd st.buf st.stdin).bind fun rd =>
    (Run.ofExcept (parse_cmd rd.1 st.argv)).bind fun r =>
      (exec_cmd r.buf r.argv r.argc os.user (os.forkRet st.pass) os.execvOk).bind fun _ =>
        Run.pure ⟨r.buf, r.argv, r.argc, rd.2, st.pass + 1⟩

/-- The first `n` passes of the loop of `main` (lines 30-34); a returned
state means the loop goes on. -/
def main : Nat → Os → ShellState → Run ShellState
  | 0, _, st => Run.pure st
  | n + 1, os, st => (iteration os st).bind (main n os)

/-- The number of children created and not yet waited for after a trace that
starts with `c` of them: a `fork` that returns a child's pid adds one, a
`wait`, which returns once a child has terminated, takes one away. -/
def outstanding (c : Nat) : List Event → Nat
  | [] => c
  | .fork pid :: t => if 0 < pid then outstanding (c + 1) t else outstanding c t
  | .wait :: t => outstanding (c - 1) t
  | _ :: t => outstanding c t

/-- The locals of `main` at program start over a given standard input; the
arrays, uninitialised in C, are filled with zeros and `NULL`s. -/
def freshState (input : List Nat) : ShellState :=
  ⟨List.replicate MAXLINE 0, List.replicate MAXARGS none, 0, ⟨input, false⟩, 0⟩

/-- The line of sixteen one-letter tokens `a a a a a a a a a a a a a a a a`. -/
def sixteenTokens : List Nat := bytes "a a a a a a a a a a a a a a a a"

/-- The line of 255 letters `a`. -/
def longLine : List Nat := List.replicate 255 97

/-- Whether the event creates a process or replaces the process image. -/
def Event.spawns : Event → Bool
  | .fork _ => true
  | .execv _ _ => true
  | _ => false

/-- The trace `t`, entered with `c` children outstanding, never has more than
one child outstanding and has none whenever the prompt is printed. -/
def calm (c : Nat) : List Event → Prop
  | [] => c ≤ 1
  | e :: t => c ≤ 1 ∧ (e = .out promptText → c = 0) ∧ calm (outstanding c [e]) t

/-! ## Lemmas on the string scans -/

theorem strlenAux_string (l rest : List Nat) (i : Nat) (h : 0 ∉ l) :
    strlenAux (l ++ 0 :: rest) i = .ok (i + l.length) := by
  induction l generalizing i with
  | nil => simp [strlenAux]
  | cons c cs ih =>
    have hc : c ≠ 0 := fun e => h (by simp [e])
    have hcs : 0 ∉ cs := fun e => h (by simp [e])
    simp [strlenAux, hc, ih (i + 1) hcs]
    omega

theorem skipAux_spaces (sp rest : List Nat) (x i : Nat) (h : ∀ c ∈ sp, c = SP) (hx : x ≠ SP) :
    skipAux (sp ++ x :: rest) i = .ok (i + sp.length) := by
  induction sp generalizing i with
  | nil => simp [skipAux, hx]
  | cons c cs ih =>
    have hc : c = SP := h c (by simp)
    have hcs : ∀ d ∈ cs, d = SP := fun d hd => h d (by simp [hd])
    simp [skipAux, hc, ih (i + 1) hcs]
    omega

theorem strchrAux_found (tok rest : List Nat) (i : Nat) (h : SP ∉ tok) (h0 : 0 ∉ tok) :
    strchrAux SP (tok ++ SP :: rest) i = .ok (some (i + tok.length)) := by
  induction tok generalizing i with
  | nil => simp [strchrAux]
  | cons c cs ih =>
    have hc : c ≠ SP := fun e => h (by simp [e])
    have hc0 : c ≠ 0 := fun e => h0 (by simp [e])
    have hcs : SP ∉ cs := fun e => h (by simp [e])
    have hcs0 : 0 ∉ cs := fun e => h0 (by simp [e])
    simp [strchrAux, hc, hc0, ih (i + 1) hcs hcs0]
    omega

theorem set_at_length (pre rest : List Nat) (a b : Nat) :
    (pre ++ a :: rest).set pre.length b = pre ++ b :: rest := by
  induction pre with
  | nil => rfl
  | cons c cs ih => simp [ih]

theorem set_slot {α : Type} (done todo : List α) (a b : α) :
    (done ++ a :: todo).set done.length b = done ++ b :: todo := by
  induction done with
  | nil => rfl
  | cons c cs ih => simp [ih]

theorem cstr_at (pre tok w : List Nat) (h0 : 0 ∉ tok) :
    cstr (pre ++ tok ++ 0 :: w) pre.length = tok := by
  unfold cstr
  rw [List.append_assoc, List.drop_left]
  induction tok with
  | nil => simp [List.takeWhile]
  | cons c cs ih =>
    have hc : c ≠ 0 := fun e => h0 (by simp [e])
    have hcs : 0 ∉ cs := fun e => h0 (by simp [e])
    simp only [List.cons_append, List.takeWhile, hc, ne_eq, not_false_eq_true, decide_True]
    exact congrArg (List.cons c) (ih hcs)

/-! ## The shape of a line after the leading spaces -/

theorem Text.length_le {u : List Nat} {toks : List (List Nat)} (h : Text u toks) :
    toks.length ≤ u.length := by
  induction h with
  | nil => simp
  | cons tok sp u toks _ _ _ _ _ ih => simp; omega

theorem Text.skip {u : List Nat} {toks : List (List Nat)} (h : Text u toks)
    (sp rest : List Nat) (i : Nat) (hsp : ∀ c ∈ sp, c = SP) :
    skipAux (sp ++ (u ++ 0 :: rest)) i = .ok (i + sp.length) := by
  cases h with
  | nil => exact skipAux_spaces sp rest 0 i hsp (by decide)
  | cons tok sp1 u1 toks1 hne hsp1 h0 _ _ =>
    cases tok with
    | nil => exact absurd rfl hne
    | cons c cs =>
      have hc : c ≠ SP := fun e => hsp1 (by simp [e])
      simpa using skipAux_spaces sp (cs ++ SP :: (sp1 ++ u1) ++ 0 :: rest) c i hsp hc

theorem runsFrom_text (s : List Nat) : ∀ cur : List Nat, SP ∉ cur → 0 ∉ cur → 0 ∉ s →
    ∃ sp u, cur ++ s ++ [SP] = sp ++ u ∧ (∀ c ∈ sp, c = SP) ∧ (cur ≠ [] → sp = []) ∧
      Text u (runsFrom cur s) := by
  induction s with
  | nil =>
    intro cur hcs hc0 _
    by_cases hcur : cur = []
    · subst hcur
      exact ⟨[SP], [], by simp, by simp, by simp, by simpa [runsFrom] using Text.nil⟩
    · refine ⟨[], cur ++ [SP], by simp, by simp, by simp, ?_⟩
      simpa [runsFrom, hcur] using Text.cons cur [] [] [] hcur hcs hc0 (by simp) Text.nil
  | cons c s ih =>
    intro cur hcs hc0 hs0
    have hc : c ≠ 0 := fun e => hs0 (by simp [e])
    have hs : 0 ∉ s := fun e => hs0 (by simp [e])
    by_cases hsp : c = SP
    · subst hsp
      obtain ⟨sp, u, e, h1, _, h3⟩ := ih [] (by simp) (by simp) hs
      simp only [List.nil_append] at e
      by_cases hcur : cur = []
      · subst hcur
        refine ⟨SP :: sp, u, by simp [e], ?_, by simp, by simpa [runsFrom] using h3⟩
        intro d hd
        rcases List.mem_cons.1 hd with h | h
        · exact h
        · exact h1 d h
      · refine ⟨[], cur ++ SP :: (sp ++ u), by simp [e], by simp, by simp, ?_⟩
        simpa [runsFrom, hcur] using Text.cons cur sp u _ hcur hcs hc0 h1 h3
    · have hcs1 : SP ∉ cur ++ [c] := by
        simp only [List.mem_append, List.mem_singleton, not_or]
        exact ⟨hcs, fun e => hsp e.symm⟩
      have hc01 : 0 ∉ cur ++ [c] := by
        simp only [List.mem_append, List.mem_singleton, not_or]
        exact ⟨hc0, fun e => hc e.symm⟩
      obtain ⟨sp, u, e, h1, h2, h3⟩ := ih (cur ++ [c]) hcs1 hc01 hs
      have hsp0 : sp = [] := h2 (by simp)
      subst hsp0
      refine ⟨[], u, by simpa using e, by simp, by simp, ?_⟩
      simpa [runsFrom, hsp] using h3

/-! ## The loop of parse_cmd on a well-formed text -/

theorem strchr_at (pre tok rest : List Nat) (h : SP ∉ tok) (h0 : 0 ∉ tok) :
    strchr (pre ++ (tok ++ SP :: rest)) pre.length SP = .ok (some (pre.length + tok.length)) := by
  unfold strchr
  rw [List.drop_left]
  exact strchrAux_found tok rest pre.length h h0

theorem strchr_end (pre rest : List Nat) :
    strchr (pre ++ 0 :: rest) pre.length SP = .ok none := by
  unfold strchr
  rw [List.drop_left]
  simp [strchrAux]

theorem parseLoop_text {u : List Nat} {toks : List (List Nat)} (h : Text u toks) :
    ∀ (fuel : Nat) (pre rest : List Nat) (done todo : List (Option Nat)),
      toks.length < fuel →
      (toks.length ≤ todo.length →
        ∃ w ptrs, parseLoop fuel (pre ++ (u ++ 0 :: rest)) pre.length (done ++ todo) done.length
            = .ok ⟨pre ++ w, done ++ (ptrs ++ todo.drop toks.length), done.length + toks.length⟩
          ∧ ptrs.map (Option.map (cstr (pre ++ w))) = toks.map some
          ∧ w.length = u.length + 1 + rest.length) ∧
      (todo.length < toks.length →
        parseLoop fuel (pre ++ (u ++ 0 :: rest)) pre.length (done ++ todo) done.length
          = .error (.argvWrite (done.length + todo.length))) := by
  induction h with
  | nil =>
    intro fuel pre rest done todo hf
    cases fuel with
    | zero => exact absurd hf (by simp)
    | succ f =>
      constructor
      · intro _
        refine ⟨0 :: rest, [], ?_, by simp, by simp [Nat.add_comm]⟩
        simp [parseLoop, strchr_end]
      · intro hlt
        exact absurd hlt (by simp)
  | cons tok sp u toks hne hsp h0 hsps htext ih =>
    intro fuel pre rest done todo hf
    cases fuel with
    | zero => exact absurd hf (by simp)
    | succ f =>
      have hf1 : toks.length < f := by simp at hf; omega
      have hbuf : pre ++ (tok ++ SP :: (sp ++ u) ++ 0 :: rest)
          = pre ++ (tok ++ SP :: (sp ++ (u ++ 0 :: rest))) := by simp
      have hset : (pre ++ (tok ++ SP :: (sp ++ (u ++ 0 :: rest)))).set (pre.length + tok.length) 0
          = (pre ++ tok ++ 0 :: sp) ++ (u ++ 0 :: rest) := by
        have := set_at_length (pre ++ tok) (sp ++ (u ++ 0 :: rest)) SP 0
        rw [List.length_append] at this
        rw [← List.append_assoc pre tok, this]
        simp
      have hskip : skipSpaces ((pre ++ tok ++ 0 :: sp) ++ (u ++ 0 :: rest))
          (pre.length + tok.length + 1) = .ok (pre ++ tok ++ 0 :: sp).length := by
        unfold skipSpaces
        have hd : ((pre ++ tok ++ 0 :: sp) ++ (u ++ 0 :: rest)).drop (pre.length + tok.length + 1)
            = sp ++ (u ++ 0 :: rest) := by
          have e1 : pre.length + tok.length + 1 = (pre ++ tok ++ [0]).length := by
            simp [Nat.add_assoc]
          have e2 : (pre ++ tok ++ 0 :: sp) ++ (u ++ 0 :: rest)
              = (pre ++ tok ++ [0]) ++ (sp ++ (u ++ 0 :: rest)) := by simp
          rw [e1, e2, List.drop_left]
        rw [hd, htext.skip sp rest _ hsps]
        simp
        omega
      rw [hbuf]
      cases todo with
      | nil =>
        constructor
        · intro hle
          exact absurd hle (by simp)
        · intro _
          simp [parseLoop, strchr_at pre tok _ hsp h0]
      | cons t todo1 =>
        have hslot : (done ++ t :: todo1).set done.length (some pre.length)
            = (done ++ [some pre.length]) ++ todo1 := by
          rw [set_slot done todo1 t (some pre.length)]
          simp
        have hstep : parseLoop (f + 1) (pre ++ (tok ++ SP :: (sp ++ (u ++ 0 :: rest)))) pre.length
            (done ++ t :: todo1) done.length
            = parseLoop f ((pre ++ tok ++ 0 :: sp) ++ (u ++ 0 :: rest)) (pre ++ tok ++ 0 :: sp).length
                ((done ++ [some pre.length]) ++ todo1) (done ++ [some pre.length]).length := by
          rw [parseLoop]
          simp only [strchr_at pre tok _ hsp h0, hset, hskip, hslot]
          simp
        rw [hstep]
        obtain ⟨ihok, iherr⟩ := ih f (pre ++ tok ++ 0 :: sp) rest (done ++ [some pre.length]) todo1 hf1
        constructor
        · intro hle
          obtain ⟨w, ptrs, e, hp, hw⟩ := ihok (by simpa using hle)
          refine ⟨tok ++ 0 :: (sp ++ w), some pre.length :: ptrs, ?_, ?_, ?_⟩
          · rw [e]
            simp
            omega
          · have hb : pre ++ (tok ++ 0 :: (sp ++ w)) = (pre ++ tok ++ 0 :: sp) ++ w := by simp
            have hc : cstr (pre ++ (tok ++ 0 :: (sp ++ w))) pre.length = tok := by
              have := cstr_at pre tok (sp ++ w) h0
              simpa using this
            simp only [List.map_cons, Option.map_some', hc]
            rw [hb, hp]
          · simp [hw]
            omega
        · intro hlt
          rw [iherr (by simpa using hlt)]
          simp
          omega

/-! ## parse_cmd on a line -/

theorem strend_line (l rest : List Nat) (h0 : 0 ∉ l) :
    strend (l ++ 0 :: rest) 0 = .ok l.length := by
  unfold strend
  simp [strlenAux_string l rest 0 h0]

theorem set_last (l rest : List Nat) (hl : l ≠ []) :
    (l ++ 0 :: rest).set (l.length - 1) SP = l.dropLast ++ SP :: 0 :: rest := by
  have e : l = l.dropLast ++ [l.getLast hl] := (List.dropLast_append_getLast hl).symm
  have hlen : l.length - 1 = l.dropLast.length := by simp
  rw [hlen]
  conv_lhs => rw [e]
  simp

/-- What `parse_cmd` does on a buffer that holds the non-empty NUL-free line
`l` and its terminating NUL: with `k` the number of maximal runs of non-space
bytes of `l` without its last byte, it succeeds when `k` is below the size of
`argv`, and otherwise writes `argv` at the index that is its size. -/
theorem parse_cmd_line (l rest : List Nat) (argv : List (Option Nat))
    (hl : l ≠ []) (h0 : 0 ∉ l) :
    ((spaceRuns l.dropLast).length < argv.length →
      ∃ buf ptrs tl,
        parse_cmd (l ++ 0 :: rest) argv
          = .ok ⟨buf, ptrs ++ none :: tl, (spaceRuns l.dropLast).length⟩
        ∧ ptrs.map (Option.map (cstr buf)) = (spaceRuns l.dropLast).map some
        ∧ buf.length = l.length + 1 + rest.length
        ∧ (ptrs ++ none :: tl).length = argv.length) ∧
    (argv.length ≤ (spaceRuns l.dropLast).length →
      parse_cmd (l ++ 0 :: rest) argv = .error (.argvWrite argv.length)) := by
  have hd0 : 0 ∉ l.dropLast := fun h => h0 (List.mem_of_mem_dropLast h)
  obtain ⟨sp, u, e, hsp, _, htext⟩ := runsFrom_text l.dropLast [] (by simp) (by simp) hd0
  simp only [List.nil_append] at e
  have htext : Text u (spaceRuns l.dropLast) := htext
  have hlen : l.length ≠ 0 := by
    intro h
    exact hl (List.length_eq_zero.1 h)
  have hbuf : l.dropLast ++ SP :: 0 :: rest = sp ++ (u ++ 0 :: rest) := by
    have : l.dropLast ++ SP :: 0 :: rest = (l.dropLast ++ [SP]) ++ 0 :: rest := by simp
    rw [this, e]
    simp
  have hcount : l.dropLast.length + 1 = sp.length + u.length := by
    simpa using congrArg List.length e
  have hdl : l.dropLast.length = l.length - 1 := List.length_dropLast l
  have hfuel : (spaceRuns l.dropLast).length < (l ++ 0 :: rest).length := by
    have := htext.length_le
    rw [List.length_append, List.length_cons]
    omega
  have hskip : skipSpaces (sp ++ (u ++ 0 :: rest)) 0 = .ok sp.length := by
    unfold skipSpaces
    simpa using htext.skip sp rest 0 hsp
  have hbl : ∀ w : List Nat, w.length = u.length + 1 + rest.length →
      (sp ++ w).length = l.length + 1 + rest.length := by
    intro w hw
    rw [List.length_append, hw]
    omega
  obtain ⟨hok, herr⟩ := parseLoop_text htext (l ++ 0 :: rest).length sp rest [] argv hfuel
  have hpre : parse_cmd (l ++ 0 :: rest) argv
      = match parseLoop (l ++ 0 :: rest).length (sp ++ (u ++ 0 :: rest)) sp.length argv 0 with
        | .error e => .error e
        | .ok r =>
          if r.argc < r.argv.length then .ok ⟨r.buf, r.argv.set r.argc none, r.argc⟩
          else .error (.argvWrite r.argc) := by
    unfold parse_cmd
    simp only [strend_line l rest h0, hlen, if_false, set_last l rest hl, hbuf, hskip]
  rw [hpre]
  simp only [List.nil_append, List.length_nil, Nat.zero_add] at hok herr
  constructor
  · intro hk
    obtain ⟨w, ptrs, e1, hp, hw⟩ := hok (Nat.le_of_lt hk)
    have hpl : ptrs.length = (spaceRuns l.dropLast).length := by
      have := congrArg List.length hp
      simpa using this
    have hdl2 : (argv.drop (spaceRuns l.dropLast).length).length
        = argv.length - (spaceRuns l.dropLast).length := List.length_drop _ _
    cases hdrop : argv.drop (spaceRuns l.dropLast).length with
    | nil =>
      rw [hdrop] at hdl2
      simp only [List.length_nil] at hdl2
      omega
    | cons a tl =>
      rw [hdrop] at hdl2 e1
      simp only [List.length_cons] at hdl2
      have hal : (ptrs ++ none :: tl).length = argv.length := by
        rw [List.length_append, List.length_cons]
        omega
      have hal2 : (spaceRuns l.dropLast).length < (ptrs ++ a :: tl).length := by
        rw [List.length_append, List.length_cons]
        omega
      refine ⟨sp ++ w, ptrs, tl, ?_, hp, hbl w hw, hal⟩
      rw [e1]
      have hs := set_slot ptrs tl a none
      rw [hpl] at hs
      simp only [hs, hal2, if_true]
  · intro hk
    rcases Nat.lt_or_ge argv.length (spaceRuns l.dropLast).length with hlt | hge
    · rw [herr hlt]
    · have heq : (spaceRuns l.dropLast).length = argv.length := Nat.le_antisymm hge hk
      obtain ⟨w, ptrs, e1, hp, _⟩ := hok hge
      have hpl : ptrs.length = (spaceRuns l.dropLast).length := by
        have := congrArg List.length hp
        simpa using this
      rw [e1]
      have hd : argv.drop (spaceRuns l.dropLast).length = [] := by
        rw [heq]
        simp
      simp [hd, hpl, heq]

theorem strlenAux_ok (cs : List Nat) : ∀ i n : Nat, strlenAux cs i = .ok n →
    ∃ l rest, cs = l ++ 0 :: rest ∧ 0 ∉ l := by
  induction cs with
  | nil =>
    intro i n h
    simp [strlenAux] at h
  | cons c cs ih =>
    intro i n h
    by_cases hc : c = 0
    · subst hc
      exact ⟨[], cs, rfl, by simp⟩
    · simp only [strlenAux, hc, if_false] at h
      obtain ⟨l, rest, e, h0⟩ := ih (i + 1) n h
      refine ⟨c :: l, rest, by simp [e], ?_⟩
      simp only [List.mem_cons, not_or]
      exact ⟨fun e => hc e.symm, h0⟩

theorem strlenAux_error (cs : List Nat) : ∀ (i : Nat) (e : Fault), strlenAux cs i = .error e →
    e = .bufRead (i + cs.length) := by
  induction cs with
  | nil =>
    intro i e h
    simp only [strlenAux, Except.error.injEq] at h
    simp [← h]
  | cons c cs ih =>
    intro i e h
    by_cases hc : c = 0
    · simp [strlenAux, hc] at h
    · simp only [strlenAux, hc, if_false] at h
      have := ih (i + 1) e h
      rw [this]
      simp
      omega

/-- The loop bound of the model is never reached: on every buffer and every
argument vector `parse_cmd` either succeeds or stops at an access outside an
array. -/
theorem parse_cmd_bound_free (buf : List Nat) (argv : List (Option Nat)) :
    parse_cmd buf argv ≠ .error .loopBound := by
  cases h : strend buf 0 with
  | error e =>
    unfold strend at h
    have he := strlenAux_error _ _ _ h
    unfold parse_cmd
    unfold strend
    rw [h, he]
    simp
  | ok n =>
    unfold strend at h
    obtain ⟨l, rest, e, h0⟩ := strlenAux_ok _ _ _ h
    simp only [List.drop_zero] at e
    rw [e]
    by_cases hl : l = []
    · subst hl
      simp [parse_cmd, strend, strlenAux]
    · have hline := parse_cmd_line l rest argv hl h0
      rcases Nat.lt_or_ge (spaceRuns l.dropLast).length argv.length with hk | hk
      · obtain ⟨b, ptrs, tl, e2, _⟩ := hline.1 hk
        rw [e2]
        simp
      · rw [hline.2 hk]
        simp

/-! ## Facts on the runs -/

theorem runsFrom_nospace (t : List Nat) : ∀ cur : List Nat, SP ∉ t → cur ++ t ≠ [] →
    runsFrom cur t = [cur ++ t] := by
  induction t with
  | nil =>
    intro cur _ hne
    have : cur ≠ [] := by simpa using hne
    simp [runsFrom, this]
  | cons c cs ih =>
    intro cur h _
    have hc : c ≠ SP := fun e => h (by simp [e])
    have hcs : SP ∉ cs := fun e => h (by simp [e])
    simp [runsFrom, hc, ih (cur ++ [c]) hcs (by simp)]

theorem runsFrom_token (tok rest : List Nat) : ∀ cur : List Nat, SP ∉ tok → cur ++ tok ≠ [] →
    runsFrom cur (tok ++ SP :: rest) = (cur ++ tok) :: runsFrom [] rest := by
  induction tok with
  | nil =>
    intro cur _ hne
    have : cur ≠ [] := by simpa using hne
    simp [runsFrom, this]
  | cons c cs ih =>
    intro cur h _
    have hc : c ≠ SP := fun e => h (by simp [e])
    have hcs : SP ∉ cs := fun e => h (by simp [e])
    simp [runsFrom, hc, ih (cur ++ [c]) hcs (by simp)]

theorem spaceRuns_spaces (n : Nat) : spaceRuns (List.replicate n SP) = [] := by
  unfold spaceRuns
  induction n with
  | zero => simp [runsFrom]
  | succ n ih => simp [List.replicate_succ, runsFrom, ih]

theorem runsFrom_splitOn (s : List Nat) : ∀ cur : List Nat,
    runsFrom cur s
      = ((s.splitOn SP).modifyHead (fun t => cur ++ t)).filter (fun t => t ≠ []) := by
  induction s with
  | nil =>
    intro cur
    by_cases h : cur = [] <;> simp [runsFrom, List.splitOn, List.splitOnP_nil, h]
  | cons c cs ih =>
    intro cur
    unfold List.splitOn at ih ⊢
    rw [List.splitOnP_cons]
    by_cases hc : c = SP
    · subst hc
      have h0 := ih []
      simp only [List.nil_append] at h0
      have hid : ∀ l : List (List Nat), List.modifyHead (fun t => t) l = l := by
        intro l; cases l <;> rfl
      rw [hid] at h0
      by_cases h : cur = [] <;> simp [runsFrom, h, h0]
    · have hb : (c == SP) = false := by simpa using hc
      simp only [hb, runsFrom, hc, if_false, ih (cur ++ [c])]
      cases List.splitOnP (fun x => x == SP) cs with
      | nil => simp
      | cons a l => simp

/-- The runs of `s` are the non-empty pieces of `s` split at every space. -/
theorem spaceRuns_eq_splitOn (s : List Nat) :
    spaceRuns s = (s.splitOn SP).filter (fun t => t ≠ []) := by
  unfold spaceRuns
  rw [runsFrom_splitOn]
  have hid : ∀ l : List (List Nat), List.modifyHead (fun t => [] ++ t) l = l := by
    intro l; cases l <;> rfl
  rw [hid]

theorem Text.tokens_ok {u : List Nat} {toks : List (List Nat)} (h : Text u toks) :
    ∀ t ∈ toks, t ≠ [] ∧ SP ∉ t ∧ 0 ∉ t := by
  induction h with
  | nil => simp
  | cons tok sp u toks hne hsp h0 _ _ ih =>
    intro t ht
    rcases List.mem_cons.1 ht with e | e
    · subst e
      exact ⟨hne, hsp, h0⟩
    · exact ih t e

theorem spaceRuns_ok (s : List Nat) (h0 : 0 ∉ s) :
    ∀ t ∈ spaceRuns s, t ≠ [] ∧ SP ∉ t ∧ 0 ∉ t := by
  obtain ⟨_, _, _, _, _, htext⟩ := runsFrom_text s [] (by simp) (by simp) h0
  exact htext.tokens_ok

theorem intercalate_cons_cons (t t2 : List Nat) (ts : List (List Nat)) :
    List.intercalate [SP] (t :: t2 :: ts) = t ++ SP :: List.intercalate [SP] (t2 :: ts) := by
  simp [List.intercalate, List.intersperse]

theorem spaceRuns_intercalate (toks : List (List Nat)) (h : ∀ t ∈ toks, t ≠ [] ∧ SP ∉ t) :
    spaceRuns (List.intercalate [SP] toks) = toks := by
  unfold spaceRuns
  induction toks with
  | nil => simp [List.intercalate, runsFrom]
  | cons t ts ih =>
    have ht := h t (by simp)
    have hts : ∀ x ∈ ts, x ≠ [] ∧ SP ∉ x := fun x hx => h x (by simp [hx])
    cases ts with
    | nil =>
      have := runsFrom_nospace t [] ht.2 (by simpa using ht.1)
      simpa [List.intercalate, List.intersperse] using this
    | cons t2 ts2 =>
      rw [intercalate_cons_cons, runsFrom_token t _ [] ht.2 (by simpa using ht.1), ih hts]
      simp

theorem intercalate_no_nul (toks : List (List Nat)) (h : ∀ t ∈ toks, 0 ∉ t) :
    0 ∉ List.intercalate [SP] toks := by
  induction toks with
  | nil => simp [List.intercalate]
  | cons t ts ih =>
    have ht := h t (by simp)
    have hts : ∀ x ∈ ts, 0 ∉ x := fun x hx => h x (by simp [hx])
    cases ts with
    | nil => simpa [List.intercalate, List.intersperse] using ht
    | cons t2 ts2 =>
      rw [intercalate_cons_cons]
      have := ih hts
      simp only [List.mem_append, List.mem_cons, not_or]
      exact ⟨ht, by decide, this⟩

theorem filterMap_of_map_some {α β : Type} (f : α → Option β) (l : List α) (ys : List β)
    (h : l.map f = ys.map some) : l.filterMap f = ys := by
  induction l generalizing ys with
  | nil =>
    cases ys with
    | nil => rfl
    | cons y ys => simp at h
  | cons a l ih =>
    cases ys with
    | nil => simp at h
    | cons y ys =>
      simp only [List.map_cons, List.cons.injEq] at h
      simp [List.filterMap_cons, h.1, ih ys h.2]

theorem argvStrings_mk (buf : List Nat) (ptrs tl : List (Option Nat)) (toks : List (List Nat))
    (hp : ptrs.map (Option.map (cstr buf)) = toks.map some) :
    argvStrings ⟨buf, ptrs ++ none :: tl, toks.length⟩ = toks.map some ++ [none] := by
  have hpl : ptrs.length = toks.length := by simpa using congrArg List.length hp
  unfold argvStrings
  simp only
  rw [← hpl, List.take_append_eq_append_take]
  simp [hp]
  omega

theorem tokens_mk (buf : List Nat) (ptrs tl : List (Option Nat)) (toks : List (List Nat))
    (hp : ptrs.map (Option.map (cstr buf)) = toks.map some) :
    tokens ⟨buf, ptrs ++ none :: tl, toks.length⟩ = toks := by
  have hpl : ptrs.length = toks.length := by simpa using congrArg List.length hp
  unfold tokens
  simp only
  rw [← hpl, List.take_left]
  exact filterMap_of_map_some _ _ _ hp

/-! ## Runs -/

theorem Run.bind_ret {α β : Type} (t : List Event) (a : α) (f : α → Run β) :
    Run.bind ⟨t, .ret a⟩ f = ⟨t ++ (f a).trace, (f a).outcome⟩ := rfl

theorem Run.bind_exited {α β : Type} (x : Run α) (f : α → Run β) (s : Int)
    (h : (x.bind f).outcome = .exited s) :
    x.outcome = .exited s ∨ ∃ a, x.outcome = .ret a ∧ (f a).outcome = .exited s := by
  rcases x with ⟨t, o⟩
  cases o with
  | ret a => exact Or.inr ⟨a, rfl, h⟩
  | exited s2 =>
    left
    simpa [Run.bind] using h
  | replaced => simp [Run.bind] at h
  | fault e => simp [Run.bind] at h

theorem fgetsChars_full (s t : List Nat) : ∀ n : Nat, s.length = n → NL ∉ s →
    fgetsChars n (s ++ t) = (s, t) := by
  induction s with
  | nil =>
    intro n hn _
    simp at hn
    subst hn
    simp [fgetsChars]
  | cons c cs ih =>
    intro n hn h
    have hc : c ≠ NL := fun e => h (by simp [e])
    have hcs : NL ∉ cs := fun e => h (by simp [e])
    cases n with
    | zero => simp at hn
    | succ m =>
      have hm : cs.length = m := by simpa using hn
      simp [fgetsChars, hc, ih m hm hcs]

theorem fgetsChars_line (s more : List Nat) : ∀ n : Nat, s.length < n → NL ∉ s →
    fgetsChars n (s ++ NL :: more) = (s ++ [NL], more) := by
  induction s with
  | nil =>
    intro n hn _
    cases n with
    | zero => simp at hn
    | succ m => simp [fgetsChars]
  | cons c cs ih =>
    intro n hn h
    have hc : c ≠ NL := fun e => h (by simp [e])
    have hcs : NL ∉ cs := fun e => h (by simp [e])
    cases n with
    | zero => simp at hn
    | succ m =>
      have hm : cs.length < m := by simpa using hn
      simp [fgetsChars, hc, ih m hm hcs]

/-- What `read_cmd` does on a line that fits the buffer with its terminator. -/
theorem read_cmd_line (s more buf : List Nat) (f : Bool) (hnl : NL ∉ s)
    (hs : s.length + 2 ≤ MAXLINE) (hbuf : buf.length = MAXLINE) :
    read_cmd buf ⟨s ++ NL :: more, f⟩
      = ⟨[.out promptText], .ret (s ++ NL :: 0 :: buf.drop (s.length + 2), ⟨more, f⟩)⟩ := by
  have hfg : fgetsChars (MAXLINE - 1) (s ++ NL :: more) = (s ++ [NL], more) :=
    fgetsChars_line s more (MAXLINE - 1) (by omega) hnl
  have h1 : ¬ (s ++ [NL] = [] ∨
      ((more = [] ∧ (s ++ [NL]).getLast? ≠ some NL ∧ (s ++ [NL]).length < MAXLINE - 1) ∧
        f = true)) := by
    simp
  have h2 : ¬ buf.length < (s ++ [NL]).length + 1 := by
    rw [hbuf, List.length_append, List.length_singleton]
    omega
  unfold read_cmd
  simp only [hfg]
  rw [if_neg h1, if_neg h2]
  simp

/-- One pass of the loop on a line that fits the buffer: the prompt, then
`parse_cmd` on the buffer that holds the line, then `exec_cmd`. -/
theorem iteration_line (os : Os) (st : ShellState) (s more : List Nat) (hnl : NL ∉ s)
    (hs : s.length + 2 ≤ MAXLINE) (hbuf : st.buf.length = MAXLINE)
    (hin : st.stdin.data = s ++ NL :: more) :
    iteration os st
      = Run.bind ⟨[.out promptText], .ret ()⟩ fun _ =>
          (Run.ofExcept (parse_cmd (s ++ NL :: 0 :: st.buf.drop (s.length + 2)) st.argv)).bind
            fun r =>
              (exec_cmd r.buf r.argv r.argc os.user (os.forkRet st.pass) os.execvOk).bind fun _ =>
                Run.pure ⟨r.buf, r.argv, r.argc, ⟨more, st.stdin.failing⟩, st.pass + 1⟩ := by
  have hst : st.stdin = ⟨s ++ NL :: more, st.stdin.failing⟩ := by
    rw [← hin]
  unfold iteration
  rw [hst, read_cmd_line s more st.buf st.stdin.failing hnl hs hbuf]
  rfl

/-! ## The tokenizer: lines that end in a line terminator -/

theorem parse_cmd_terminated (s rest : List Nat) (argv : List (Option Nat)) (h0 : 0 ∉ s) :
    ((spaceRuns s).length < argv.length →
      ∃ buf ptrs tl,
        parse_cmd (s ++ NL :: 0 :: rest) argv = .ok ⟨buf, ptrs ++ none :: tl, (spaceRuns s).length⟩
        ∧ ptrs.map (Option.map (cstr buf)) = (spaceRuns s).map some) ∧
    (argv.length ≤ (spaceRuns s).length →
      parse_cmd (s ++ NL :: 0 :: rest) argv = .error (.argvWrite argv.length)) := by
  have h := parse_cmd_line (s ++ [NL]) rest argv (by simp)
    (by simp only [List.mem_append, List.mem_singleton, not_or]; exact ⟨h0, by decide⟩)
  simp only [List.dropLast_concat, List.append_assoc, List.singleton_append] at h
  constructor
  · intro hk
    obtain ⟨buf, ptrs, tl, e, hp, _, _⟩ := h.1 hk
    exact ⟨buf, ptrs, tl, e, hp⟩
  · exact h.2

/-- C1 (amended): for every input line that consists of a NUL-free string `s`
with at most 15 maximal runs of non-space characters, followed by one line
terminator, `parse_cmd` succeeds; the argument vector `argv[0..argc]` is
exactly those runs, in their left-to-right order, followed by the sentinel,
and the Argument Count is the number of runs. Only the byte 0x20 delimits:
the runs are the non-empty pieces of `s` split at every space. -/
theorem parse_cmd_tokens (s rest : List Nat) (argv : List (Option Nat))
    (h0 : 0 ∉ s) (hargv : argv.length = MAXARGS) (hk : (spaceRuns s).length ≤ 15) :
    (∃ r, parse_cmd (s ++ NL :: 0 :: rest) argv = .ok r ∧
      argvStrings r = (spaceRuns s).map some ++ [none] ∧
      r.argc = (spaceRuns s).length) ∧
    spaceRuns s = (s.splitOn SP).filter (fun t => t ≠ []) := by
  have hk2 : (spaceRuns s).length < argv.length := by
    rw [hargv]
    exact Nat.lt_succ_of_le hk
  obtain ⟨buf, ptrs, tl, e, hp⟩ := (parse_cmd_terminated s rest argv h0).1 hk2
  exact ⟨⟨_, e, argvStrings_mk buf ptrs tl _ hp, rfl⟩, spaceRuns_eq_splitOn s⟩

/-- Witness of C1: `"ls -la /tmp\n"` gives count 3 and
`["ls", "-la", "/tmp", sentinel]`; in `"a\tb  c\n"` the tab stays inside the
token and the two spaces act as one delimiter. -/
theorem parse_cmd_tokens_witness :
    (∃ r, parse_cmd (bytes "ls -la /tmp" ++ NL :: 0 :: List.replicate 243 7)
        (List.replicate 16 none) = .ok r ∧
      argvStrings r = [some (bytes "ls"), some (bytes "-la"), some (bytes "/tmp"), none] ∧
      r.argc = 3) ∧
    (∃ r, parse_cmd (bytes "a\tb  c" ++ NL :: 0 :: List.replicate 248 7)
        (List.replicate 16 none) = .ok r ∧
      argvStrings r = [some (bytes "a\tb"), some (bytes "c"), none] ∧ r.argc = 2) :=
  ⟨(parse_cmd_tokens (bytes "ls -la /tmp") (List.replicate 243 7) (List.replicate 16 none)
      (by decide) (by decide) (by decide)).1,
   (parse_cmd_tokens (bytes "a\tb  c") (List.replicate 248 7) (List.replicate 16 none)
      (by decide) (by decide) (by decide)).1⟩

/-- Counterexample to C1 as stated: on the 32-character line of sixteen
tokens `a`, `parse_cmd` does not yield the sixteen runs followed by the
sentinel: the sentinel would be `argv[16]`, outside the vector. -/
theorem parse_cmd_tokens_sixteen :
    ¬ ∃ r, parse_cmd (sixteenTokens ++ NL :: 0 :: List.replicate 223 0)
        (List.replicate 16 none) = .ok r ∧
      argvStrings r = (spaceRuns sixteenTokens).map some ++ [none] ∧
      r.argc = (spaceRuns sixteenTokens).length := by
  rintro ⟨r, e, _⟩
  have h := (parse_cmd_terminated sixteenTokens (List.replicate 223 0) (List.replicate 16 none)
    (by decide)).2 (by decide)
  rw [h] at e
  exact absurd e (by simp)

/-- C3 (code defect): on an empty line, a buffer whose first byte is NUL,
`parse_cmd` writes the space at offset `strlen(buf) - 1 = -1`, one position
before the start of the buffer; the loop of `main` gets there on an input line
that starts with a NUL byte. -/
theorem parse_cmd_empty_line :
    (∀ (rest : List Nat) (argv : List (Option Nat)),
      parse_cmd (0 :: rest) argv = .error (.bufWrite (-1))) ∧
    (∀ (os : Os) (more : List Nat),
      main 1 os (freshState (0 :: NL :: more))
        = ⟨[.out promptText], .fault (.bufWrite (-1))⟩) := by
  have h : ∀ (rest : List Nat) (argv : List (Option Nat)),
      parse_cmd (0 :: rest) argv = .error (.bufWrite (-1)) := by
    intro rest argv
    simp [parse_cmd, strend, strlenAux]
  refine ⟨h, ?_⟩
  intro os more
  have hit := iteration_line os (freshState (0 :: NL :: more)) [0] more (by decide) (by decide)
    (List.length_replicate _ _) rfl
  rw [main, hit]
  simp only [List.singleton_append, h]
  rfl

/-- C4 (code defect): the line of sixteen tokens `a` has 32 characters with
its terminator and no NUL, so it fits the line buffer, and `parse_cmd` on it
writes `argv[16]`, outside the 16 slots of the argument vector; the loop of
`main` gets there when it reads that line. -/
theorem parse_cmd_argv_overflow :
    (sixteenTokens ++ [NL]).length ≤ 255 ∧ 0 ∉ sixteenTokens ++ [NL] ∧
    (∀ (rest : List Nat) (argv : List (Option Nat)), argv.length = MAXARGS →
      parse_cmd (sixteenTokens ++ NL :: 0 :: rest) argv = .error (.argvWrite 16)) ∧
    (∀ (os : Os) (more : List Nat),
      main 1 os (freshState (sixteenTokens ++ NL :: more))
        = ⟨[.out promptText], .fault (.argvWrite 16)⟩) := by
  have h : ∀ (rest : List Nat) (argv : List (Option Nat)), argv.length = MAXARGS →
      parse_cmd (sixteenTokens ++ NL :: 0 :: rest) argv = .error (.argvWrite 16) := by
    intro rest argv hargv
    have h := (parse_cmd_terminated sixteenTokens rest argv (by decide)).2
      (by rw [hargv]; decide)
    rw [h, hargv]
  refine ⟨by decide, by decide, h, ?_⟩
  intro os more
  have hit := iteration_line os (freshState (sixteenTokens ++ NL :: more)) sixteenTokens more
    (by decide) (by decide) (List.length_replicate _ _) rfl
  have hp := h (List.drop (sixteenTokens.length + 2)
    (freshState (sixteenTokens ++ NL :: more)).buf)
    (freshState (sixteenTokens ++ NL :: more)).argv (List.length_replicate _ _)
  rw [main, hit, hp]
  rfl

/-- Witness of C4 in the 256-byte buffer of `main`. -/
theorem parse_cmd_argv_overflow_witness :
    (List.replicate 16 (none : Option Nat)).length = MAXARGS ∧
    (sixteenTokens ++ NL :: 0 :: List.replicate 223 0).length = MAXLINE ∧
    parse_cmd (sixteenTokens ++ NL :: 0 :: List.replicate 223 0) (List.replicate 16 none)
      = .error (.argvWrite 16) :=
  ⟨by decide,
    by rw [List.length_append, List.length_cons, List.length_cons, List.length_replicate]; decide,
    parse_cmd_argv_overflow.2.2.1 (List.replicate 223 0) (List.replicate 16 none) (by decide)⟩

/-- C5 (amended): for every non-empty NUL-free line in the buffer that has at
most 15 tokens (maximal runs of non-space characters before its last
character), `parse_cmd` succeeds, every token it produces is non-empty and
free of spaces, the Argument Count is the number of tokens, and tokenizing the
tokens joined by single spaces and followed by a line terminator succeeds
with the same token list and the same count. -/
theorem parse_cmd_retokenize (l rest rest2 : List Nat) (argv argv2 : List (Option Nat))
    (hl : l ≠ []) (h0 : 0 ∉ l) (hargv : argv.length = MAXARGS)
    (hargv2 : argv2.length = MAXARGS) (hk : (spaceRuns l.dropLast).length ≤ 15) :
    ∃ r, parse_cmd (l ++ 0 :: rest) argv = .ok r ∧
      tokens r = spaceRuns l.dropLast ∧
      (∀ t ∈ tokens r, t ≠ [] ∧ SP ∉ t) ∧ r.argc = (tokens r).length ∧
      ∃ r2, parse_cmd (List.intercalate [SP] (tokens r) ++ NL :: 0 :: rest2) argv2 = .ok r2 ∧
        tokens r2 = tokens r ∧ r2.argc = r.argc := by
  have hd0 : 0 ∉ l.dropLast := fun h => h0 (List.mem_of_mem_dropLast h)
  have hok := spaceRuns_ok l.dropLast hd0
  have hk1 : (spaceRuns l.dropLast).length < argv.length := by
    rw [hargv]
    exact Nat.lt_succ_of_le hk
  obtain ⟨buf, ptrs, tl, e, hp, _, _⟩ := (parse_cmd_line l rest argv hl h0).1 hk1
  have htok : tokens ⟨buf, ptrs ++ none :: tl, (spaceRuns l.dropLast).length⟩
      = spaceRuns l.dropLast := tokens_mk buf ptrs tl _ hp
  have hruns : spaceRuns (List.intercalate [SP] (spaceRuns l.dropLast))
      = spaceRuns l.dropLast :=
    spaceRuns_intercalate _ (fun t ht => ⟨(hok t ht).1, (hok t ht).2.1⟩)
  have hnul : 0 ∉ List.intercalate [SP] (spaceRuns l.dropLast) :=
    intercalate_no_nul _ (fun t ht => (hok t ht).2.2)
  obtain ⟨buf2, ptrs2, tl2, e2, hp2⟩ :=
    (parse_cmd_terminated (List.intercalate [SP] (spaceRuns l.dropLast)) rest2 argv2 hnul).1
      (by rw [hruns, hargv2, ← hargv]; exact hk1)
  rw [hruns] at e2 hp2
  refine ⟨_, e, htok, ?_, ?_, ?_⟩
  · intro t ht
    rw [htok] at ht
    exact ⟨(hok t ht).1, (hok t ht).2.1⟩
  · rw [htok]
  · rw [htok]
    exact ⟨_, e2, tokens_mk buf2 ptrs2 tl2 _ hp2, rfl⟩

/-- Witness of C5 on the line `"  ls   -la /tmp \n"`. -/
theorem parse_cmd_retokenize_witness :
    ∃ r, parse_cmd (bytes "  ls   -la /tmp \n" ++ 0 :: List.replicate 8 7)
        (List.replicate 16 none) = .ok r ∧
      tokens r = [bytes "ls", bytes "-la", bytes "/tmp"] ∧
      (∀ t ∈ tokens r, t ≠ [] ∧ SP ∉ t) ∧ r.argc = (tokens r).length ∧
      ∃ r2, parse_cmd (List.intercalate [SP] (tokens r) ++ NL :: 0 :: List.replicate 9 5)
          (List.replicate 16 (some 3)) = .ok r2 ∧
        tokens r2 = tokens r ∧ r2.argc = r.argc :=
  parse_cmd_retokenize (bytes "  ls   -la /tmp \n") (List.replicate 8 7) (List.replicate 9 5)
    (List.replicate 16 none) (List.replicate 16 (some 3))
    (by decide) (by decide) (by decide) (by decide) (by decide)

/-- Counterexample to C5 as stated: the line of sixteen tokens `a` with its
terminator is non-empty and NUL-free, and on it `parse_cmd` produces no token
list at all, so there is none that tokenizing again could give back: it stops
at the write of `argv[16]`. -/
theorem parse_cmd_retokenize_sixteen :
    sixteenTokens ++ [NL] ≠ [] ∧ 0 ∉ sixteenTokens ++ [NL] ∧
    ¬ ∃ r, parse_cmd ((sixteenTokens ++ [NL]) ++ 0 :: List.replicate 223 0)
        (List.replicate 16 none) = .ok r ∧
      (∀ t ∈ tokens r, t ≠ [] ∧ SP ∉ t) ∧
      ∃ r2, parse_cmd (List.intercalate [SP] (tokens r) ++ NL :: 0 :: List.replicate 223 0)
          (List.replicate 16 none) = .ok r2 ∧
        tokens r2 = tokens r ∧ r2.argc = r.argc := by
  refine ⟨by decide, by decide, ?_⟩
  rintro ⟨r, e, _⟩
  have h := (parse_cmd_line (sixteenTokens ++ [NL]) (List.replicate 223 0)
    (List.replicate 16 none) (by decide) (by decide)).2 (by decide)
  rw [h] at e
  exact absurd e (by simp)

/-- C9 (code defect): a line of 255 characters free of spaces, NULs and line
terminators, followed by its line terminator, is stored by `read_cmd` as the
255 characters without the terminator, and `parse_cmd` then overwrites the
last of them: the single token is the first 254 characters. -/
theorem long_line_loses_last (s more buf : List Nat) (argv : List (Option Nat)) (f : Bool)
    (hs : s.length = 255) (hsp : SP ∉ s) (h0 : 0 ∉ s) (hnl : NL ∉ s)
    (hbuf : buf.length = MAXLINE) (hargv : argv.length = MAXARGS) :
    read_cmd buf ⟨s ++ NL :: more, f⟩
      = ⟨[.out promptText], .ret (s ++ [0], ⟨NL :: more, f⟩)⟩ ∧
    ∃ r, parse_cmd (s ++ [0]) argv = .ok r ∧ r.argc = 1 ∧
      argvStrings r = [some s.dropLast, none] ∧ s.dropLast ≠ s := by
  have hne : s ≠ [] := by
    intro e
    rw [e] at hs
    simp at hs
  constructor
  · have hfg : fgetsChars (MAXLINE - 1) (s ++ NL :: more) = (s, NL :: more) :=
      fgetsChars_full s (NL :: more) (MAXLINE - 1) hs hnl
    have hdrop : buf.drop (s.length + 1) = [] := by
      apply List.drop_eq_nil_of_le
      rw [hs, hbuf]
    unfold read_cmd
    simp only [hfg, hdrop]
    simp [hne, hs, hbuf]
  · have hdl : s.dropLast.length = 254 := by simp [hs]
    have hdne : s.dropLast ≠ [] := by
      intro e
      rw [e] at hdl
      simp at hdl
    have hdsp : SP ∉ s.dropLast := fun h => hsp (List.mem_of_mem_dropLast h)
    have hruns : spaceRuns s.dropLast = [s.dropLast] := by
      unfold spaceRuns
      simpa using runsFrom_nospace s.dropLast [] hdsp (by simpa using hdne)
    obtain ⟨buf2, ptrs, tl, e, hp, _, _⟩ := (parse_cmd_line s [] argv hne h0).1
      (by rw [hruns, hargv]; simp)
    rw [hruns] at e hp
    refine ⟨_, e, by simp, ?_, ?_⟩
    · have := argvStrings_mk buf2 ptrs tl [s.dropLast] hp
      simpa using this
    · intro e2
      have := congrArg List.length e2
      rw [hdl, hs] at this
      exact absurd this (by decide)

/-- Witness of C9: the line of 255 letters `a`. -/
theorem long_line_loses_last_witness :
    read_cmd (List.replicate 256 0) ⟨longLine ++ NL :: [], false⟩
      = ⟨[.out promptText], .ret (longLine ++ [0], ⟨NL :: [], false⟩)⟩ ∧
    ∃ r, parse_cmd (longLine ++ [0]) (List.replicate 16 none) = .ok r ∧ r.argc = 1 ∧
      argvStrings r = [some longLine.dropLast, none] ∧ longLine.dropLast ≠ longLine :=
  long_line_loses_last longLine [] (List.replicate 256 0) (List.replicate 16 none) false
    (List.length_replicate 255 97)
    (fun h => absurd (List.eq_of_mem_replicate h) (by decide))
    (fun h => absurd (List.eq_of_mem_replicate h) (by decide))
    (fun h => absurd (List.eq_of_mem_replicate h) (by decide))
    (List.length_replicate 256 0) (List.length_replicate 16 none)

theorem exec_cmd_zero (buf : List Nat) (argv : List (Option Nat)) (user : Option (List Nat))
    (pid : Int) (ok : List Nat → Bool) :
    exec_cmd buf argv 0 user pid ok = ⟨[], .ret ()⟩ := by
  simp [exec_cmd, Run.pure]

/-- C2: for every input line made only of zero or more spaces followed by a
line terminator, `parse_cmd` sets the Argument Count to 0 and the vector holds
only the sentinel, and `exec_cmd` on that result makes no call at all and
returns to the loop; it does not call `builtin_cmd`, which would dereference
the sentinel. -/
theorem blank_line_no_action (n : Nat) (rest : List Nat) (argv : List (Option Nat))
    (user : Option (List Nat)) (pid : Int) (ok : List Nat → Bool)
    (hargv : argv.length = MAXARGS) :
    ∃ r, parse_cmd (List.replicate n SP ++ NL :: 0 :: rest) argv = .ok r ∧
      r.argc = 0 ∧ argvStrings r = [none] ∧
      exec_cmd r.buf r.argv r.argc user pid ok = ⟨[], .ret ()⟩ ∧
      (builtin_cmd r.buf r.argv user).outcome = .fault .nullDeref := by
  have h0 : 0 ∉ List.replicate n SP := by
    intro h
    have := List.eq_of_mem_replicate h
    exact absurd this (by decide)
  obtain ⟨buf, ptrs, tl, e, hp⟩ := (parse_cmd_terminated (List.replicate n SP) rest argv h0).1
    (by rw [spaceRuns_spaces, hargv]; decide)
  rw [spaceRuns_spaces] at e hp
  have hptrs : ptrs = [] := by simpa using hp
  subst hptrs
  refine ⟨_, e, rfl, by simp [argvStrings], exec_cmd_zero _ _ _ _ _, ?_⟩
  simp [builtin_cmd]

/-- Witness of C2: the line of three spaces. -/
theorem blank_line_no_action_witness :
    ∃ r, parse_cmd (List.replicate 3 SP ++ NL :: 0 :: List.replicate 251 0)
        (List.replicate 16 (some 0)) = .ok r ∧
      r.argc = 0 ∧ argvStrings r = [none] ∧
      exec_cmd r.buf r.argv r.argc (some (bytes "alice")) 7 (fun _ => true) = ⟨[], .ret ()⟩ ∧
      (builtin_cmd r.buf r.argv (some (bytes "alice"))).outcome = .fault .nullDeref :=
  blank_line_no_action 3 (List.replicate 251 0) (List.replicate 16 (some 0))
    (some (bytes "alice")) 7 (fun _ => true) (by decide)

/-! ## The dispatcher -/

theorem exit_ne_whoami : bytes "whoami" ≠ bytes "exit" := by decide

theorem exit_ne_help : bytes "help" ≠ bytes "exit" := by decide

theorem whoami_ne_help : bytes "help" ≠ bytes "whoami" := by decide

theorem helpText_ne_prompt : helpText ≠ promptText := by decide

theorem line_ne_prompt (u : List Nat) : u ++ [NL] ≠ promptText := by
  intro h
  have h2 := congrArg List.getLast? h
  rw [List.getLast?_append] at h2
  have h3 : promptText.getLast? = some SP := by decide
  rw [h3] at h2
  simp at h2

theorem exec_cmd_whoami (buf : List Nat) (argv : List (Option Nat)) (argc p : Nat)
    (user : Option (List Nat)) (pid : Int) (ok : List Nat → Bool)
    (hc : 1 ≤ argc) (hp : argv.head? = some (some p)) (h : cstr buf p = bytes "whoami") :
    exec_cmd buf argv argc user pid ok
      = match user with
        | some u => ⟨[.out (u ++ [NL])], .ret ()⟩
        | none => ⟨[], .fault .nullDeref⟩ := by
  have hc0 : argc ≠ 0 := by omega
  cases user with
  | none => simp [exec_cmd, builtin_cmd, Run.bind, hc0, hp, h, exit_ne_whoami]
  | some u => simp [exec_cmd, builtin_cmd, Run.bind, Run.pure, hc0, hp, h, exit_ne_whoami]

/-- C6 (code defect): for every argument vector with count at least 1 whose
first token is `whoami`, when `USER` is unset `exec_cmd` passes `NULL` to the
`%s` of `printf`: it neither prints nor returns to the loop. Apart from that,
the claim holds: on `exit` the process exits with no call made, on `whoami`
with `USER` set and on `help` the only call is the print and `exec_cmd`
returns, and on none of the three, whatever `USER`, is there a `fork` or an
`execv`. -/
theorem builtins_spawn_nothing (buf : List Nat) (argv : List (Option Nat)) (argc p : Nat)
    (user : Option (List Nat)) (pid : Int) (ok : List Nat → Bool)
    (hc : 1 ≤ argc) (hp : argv.head? = some (some p)) :
    (cstr buf p = bytes "whoami" → user = none →
      exec_cmd buf argv argc user pid ok = ⟨[], .fault .nullDeref⟩) ∧
    (cstr buf p = bytes "exit" → exec_cmd buf argv argc user pid ok = ⟨[], .exited 0⟩) ∧
    (cstr buf p = bytes "whoami" → ∀ u, user = some u →
      exec_cmd buf argv argc user pid ok = ⟨[.out (u ++ [NL])], .ret ()⟩) ∧
    (cstr buf p = bytes "help" →
      exec_cmd buf argv argc user pid ok = ⟨[.out helpText], .ret ()⟩) ∧
    (cstr buf p ∈ [bytes "exit", bytes "whoami", bytes "help"] →
      ∀ e ∈ (exec_cmd buf argv argc user pid ok).trace, e.spawns = false) := by
  have hc0 : argc ≠ 0 := by omega
  have h0 : cstr buf p = bytes "whoami" → user = none →
      exec_cmd buf argv argc user pid ok = ⟨[], .fault .nullDeref⟩ := by
    intro h hu
    rw [exec_cmd_whoami buf argv argc p user pid ok hc hp h, hu]
  have h1 : cstr buf p = bytes "exit" → exec_cmd buf argv argc user pid ok = ⟨[], .exited 0⟩ := by
    intro h
    simp [exec_cmd, builtin_cmd, Run.bind, hc0, hp, h]
  have h2 : cstr buf p = bytes "whoami" → ∀ u, user = some u →
      exec_cmd buf argv argc user pid ok = ⟨[.out (u ++ [NL])], .ret ()⟩ := by
    intro h u hu
    rw [exec_cmd_whoami buf argv argc p user pid ok hc hp h, hu]
  have h3 : cstr buf p = bytes "help" →
      exec_cmd buf argv argc user pid ok = ⟨[.out helpText], .ret ()⟩ := by
    intro h
    simp [exec_cmd, builtin_cmd, Run.bind, Run.pure, hc0, hp, h, exit_ne_help, whoami_ne_help]
  refine ⟨h0, h1, h2, h3, ?_⟩
  intro hm e he
  simp only [List.mem_cons, List.mem_singleton, List.not_mem_nil, or_false] at hm
  rcases hm with h | h | h
  · rw [h1 h] at he
    simp at he
  · cases hu : user with
    | none =>
      rw [h0 h hu] at he
      simp at he
    | some u =>
      rw [h2 h u hu] at he
      simp only [List.mem_singleton] at he
      subst he
      rfl
  · rw [h3 h] at he
    simp only [List.mem_singleton] at he
    subst he
    rfl

/-- Witness of C6: the vector of `"whoami\n"` with `USER` unset, in the
dispatcher and from the loop of `main`; and the vector of `"whoami x\n"` with
`USER=alice`. -/
theorem builtins_spawn_nothing_witness :
    exec_cmd (bytes "whoami" ++ [0, 0]) [some 0, none] 1 none 5 (fun _ => true)
      = ⟨[], .fault .nullDeref⟩ ∧
    main 1 ⟨none, fun _ => 5, fun _ => true⟩ (freshState (bytes "whoami\n"))
      = ⟨[.out promptText], .fault .nullDeref⟩ ∧
    exec_cmd (bytes "whoami" ++ 0 :: bytes "x" ++ [0, 0]) [some 0, some 7, none] 2
      (some (bytes "alice")) 5 (fun _ => true) = ⟨[.out (bytes "alice\n")], .ret ()⟩ :=
  ⟨(builtins_spawn_nothing (bytes "whoami" ++ [0, 0]) [some 0, none] 1 0 none 5
      (fun _ => true) (by decide) rfl).1 (by decide) rfl,
    by decide,
    (builtins_spawn_nothing (bytes "whoami" ++ 0 :: bytes "x" ++ [0, 0]) [some 0, some 7, none]
      2 0 (some (bytes "alice")) 5 (fun _ => true) (by decide) rfl).2.2.1 (by decide)
      (bytes "alice") rfl⟩

theorem exec_cmd_external (buf : List Nat) (argv : List (Option Nat)) (argc p : Nat)
    (user : Option (List Nat)) (pid : Int) (ok : List Nat → Bool)
    (hc : 1 ≤ argc) (hp : argv.head? = some (some p))
    (h1 : cstr buf p ≠ bytes "exit") (h2 : cstr buf p ≠ bytes "whoami")
    (h3 : cstr buf p ≠ bytes "help") :
    exec_cmd buf argv argc user pid ok
      = (Fork pid).bind fun pid =>
          if pid = 0 then Execv buf p argv ok else ⟨[.wait], .ret ()⟩ := by
  have hc0 : argc ≠ 0 := by omega
  simp [exec_cmd, builtin_cmd, Run.bind, hc0, hp, h1, h2, h3]

theorem Run.bind_trace {α β : Type} (x : Run α) (f : α → Run β) :
    (x.bind f).trace = x.trace ∨ ∃ a, x.outcome = .ret a ∧ (x.bind f).trace = x.trace ++ (f a).trace := by
  rcases x with ⟨t, o⟩
  cases o with
  | ret a => exact Or.inr ⟨a, rfl, rfl⟩
  | exited s => exact Or.inl rfl
  | replaced => exact Or.inl rfl
  | fault e => exact Or.inl rfl

theorem Run.bind_trace_head {α β : Type} (x : Run α) (f : α → Run β) (e : Event)
    (h : x.trace.head? = some e) : (x.bind f).trace.head? = some e := by
  rcases Run.bind_trace x f with h1 | ⟨a, _, h1⟩
  · rw [h1, h]
  · rw [h1]
    cases ht : x.trace with
    | nil => rw [ht] at h; simp at h
    | cons y ys => rw [ht] at h; simpa using h

theorem read_cmd_trace (buf : List Nat) (inp : Stdin) :
    (read_cmd buf inp).trace = [.out promptText] := by
  unfold read_cmd
  simp only []
  split
  · rfl
  · split <;> rfl

theorem iteration_trace_head (os : Os) (st : ShellState) :
    (iteration os st).trace.head? = some (.out promptText) := by
  unfold iteration
  apply Run.bind_trace_head
  rw [read_cmd_trace]
  rfl

theorem main_succ_trace_head (n : Nat) (os : Os) (st : ShellState) :
    (main (n + 1) os st).trace.head? = some (.out promptText) := by
  rw [main]
  exact Run.bind_trace_head _ _ _ (iteration_trace_head os st)

/-- C8: for every argument vector with count at least 1 whose first token is
not a built-in name: in the child (`fork` returned 0) `exec_cmd` calls `execv`
with the first token as path and the strings of the vector as arguments; if
`execv` fails the child prints the first token followed by
`: unknown command.` and a newline on the error stream and exits, and if it
succeeds the image is replaced; in the parent (`fork` returned a pid)
`exec_cmd` calls `wait` and returns, and the loop when it goes on starts by
printing the prompt. -/
theorem external_command (buf : List Nat) (argv : List (Option Nat)) (argc p : Nat)
    (user : Option (List Nat)) (ok : List Nat → Bool)
    (hc : 1 ≤ argc) (hp : argv.head? = some (some p))
    (h1 : cstr buf p ≠ bytes "exit") (h2 : cstr buf p ≠ bytes "whoami")
    (h3 : cstr buf p ≠ bytes "help") :
    (ok (cstr buf p) = false →
      exec_cmd buf argv argc user 0 ok
        = ⟨[.fork 0, .execv (cstr buf p) (vectorStrings buf argv),
            .err (cstr buf p ++ bytes ": unknown command.\n")], .exited 0⟩) ∧
    (ok (cstr buf p) = true →
      exec_cmd buf argv argc user 0 ok
        = ⟨[.fork 0, .execv (cstr buf p) (vectorStrings buf argv)], .replaced⟩) ∧
    (∀ pid : Int, 0 < pid →
      exec_cmd buf argv argc user pid ok = ⟨[.fork pid, .wait], .ret ()⟩) ∧
    (∀ (n : Nat) (os : Os) (st : ShellState),
      (main (n + 1) os st).trace.head? = some (.out promptText)) := by
  have h := fun pid => exec_cmd_external buf argv argc p user pid ok hc hp h1 h2 h3
  refine ⟨?_, ?_, ?_, main_succ_trace_head⟩
  · intro hk
    rw [h 0]
    simp [Fork, Run.bind, Execv, hk, hp]
  · intro hk
    rw [h 0]
    simp [Fork, Run.bind, Execv, hk]
  · intro pid hpid
    rw [h pid]
    have h4 : ¬ pid < 0 := by omega
    have h5 : pid ≠ 0 := by omega
    simp [Fork, Run.bind, h4, h5]

/-- Witness of C8: the line `"/bin/does-not-exist\n"`, in the child and in
the parent, `execv` failing. -/
theorem external_command_witness :
    exec_cmd (bytes "/bin/does-not-exist" ++ [0, 0]) [some 0, none] 1 none 0 (fun _ => false)
      = ⟨[.fork 0, .execv (bytes "/bin/does-not-exist") [bytes "/bin/does-not-exist"],
          .err (bytes "/bin/does-not-exist: unknown command.\n")], .exited 0⟩ ∧
    (main 1 ⟨none, fun _ => 0, fun _ => false⟩ (freshState (bytes "/bin/does-not-exist\n"))).trace
      = [.out promptText, .fork 0,
          .execv (bytes "/bin/does-not-exist") [bytes "/bin/does-not-exist"],
          .err (bytes "/bin/does-not-exist: unknown command.\n")] ∧
    (main 2 ⟨none, fun _ => 5, fun _ => false⟩ (freshState (bytes "/bin/does-not-exist\n"))).trace
      = [.out promptText, .fork 5, .wait, .out promptText] :=
  ⟨(external_command (bytes "/bin/does-not-exist" ++ [0, 0]) [some 0, none] 1 0 none
      (fun _ => false) (by decide) rfl (by decide) (by decide) (by decide)).1 rfl,
    by decide, by decide⟩

/-! ## Every way `exec_cmd` can go -/

theorem exec_cmd_cases (buf : List Nat) (argv : List (Option Nat)) (argc : Nat)
    (user : Option (List Nat)) (pid : Int) (ok : List Nat → Bool) :
    exec_cmd buf argv argc user pid ok = ⟨[], .ret ()⟩ ∨
    exec_cmd buf argv argc user pid ok = ⟨[], .fault .nullDeref⟩ ∨
    exec_cmd buf argv argc user pid ok = ⟨[], .exited 0⟩ ∨
    (∃ u, exec_cmd buf argv argc user pid ok = ⟨[.out (u ++ [NL])], .ret ()⟩) ∨
    exec_cmd buf argv argc user pid ok = ⟨[.out helpText], .ret ()⟩ ∨
    (∃ m, exec_cmd buf argv argc user pid ok = ⟨[.fork pid, .err m], .exited 0⟩) ∨
    (∃ path args, exec_cmd buf argv argc user pid ok
      = ⟨[.fork 0, .execv path args], .replaced⟩) ∨
    (∃ path args m, exec_cmd buf argv argc user pid ok
      = ⟨[.fork 0, .execv path args, .err m], .exited 0⟩) ∨
    (0 < pid ∧ exec_cmd buf argv argc user pid ok = ⟨[.fork pid, .wait], .ret ()⟩) := by
  by_cases hc : argc = 0
  · left
    subst hc
    exact exec_cmd_zero buf argv user pid ok
  · have hc1 : 1 ≤ argc := by omega
    cases hh : argv.head? with
    | none =>
      right; left
      simp [exec_cmd, builtin_cmd, Run.bind, hc, hh]
    | some q =>
      cases q with
      | none =>
        right; left
        simp [exec_cmd, builtin_cmd, Run.bind, hc, hh]
      | some p =>
        by_cases h1 : cstr buf p = bytes "exit"
        · right; right; left
          simp [exec_cmd, builtin_cmd, Run.bind, hc, hh, h1]
        · by_cases h2 : cstr buf p = bytes "whoami"
          · have hw := exec_cmd_whoami buf argv argc p user pid ok hc1 hh h2
            cases user with
            | none =>
              right; left
              exact hw
            | some u =>
              right; right; right; left
              exact ⟨u, hw⟩
          · by_cases h3 : cstr buf p = bytes "help"
            · right; right; right; right; left
              simp [exec_cmd, builtin_cmd, Run.bind, Run.pure, hc, hh, h3, exit_ne_help,
                whoami_ne_help]
            · right; right; right; right; right
              rw [exec_cmd_external buf argv argc p user pid ok hc1 hh h1 h2 h3]
              rcases Int.lt_trichotomy pid 0 with hlt | heq | hgt
              · left
                exact ⟨bytes "fork error... terminating shell.\n", by simp [Fork, Run.bind, hlt]⟩
              · subst heq
                by_cases hk : ok (cstr buf p) = true
                · right; left
                  exact ⟨cstr buf p, vectorStrings buf argv, by simp [Fork, Run.bind, Execv, hk]⟩
                · right; right; left
                  exact ⟨cstr buf p, vectorStrings buf argv,
                    cstr buf p ++ bytes ": unknown command.\n",
                    by simp [Fork, Run.bind, Execv, hk, hh]⟩
              · right; right; right
                have h4 : ¬ pid < 0 := by omega
                have h5 : pid ≠ 0 := by omega
                exact ⟨hgt, by simp [Fork, Run.bind, h4, h5]⟩

/-! ## One pass of the loop -/

theorem read_cmd_exited (buf : List Nat) (inp : Stdin) (s : Int)
    (h : (read_cmd buf inp).outcome = .exited s) : s = 0 := by
  unfold read_cmd at h
  simp only [] at h
  split at h
  · simp only [Outcome.exited.injEq] at h
    exact h.symm
  · split at h <;> simp at h

theorem iteration_shape (os : Os) (st : ShellState) :
    ((iteration os st).trace = [.out promptText] ∧
      (∀ st2, (iteration os st).outcome ≠ .ret st2) ∧
      (∀ s, (iteration os st).outcome = .exited s → s = 0)) ∨
    ∃ buf argv argc,
      (iteration os st).trace
        = .out promptText :: (exec_cmd buf argv argc os.user (os.forkRet st.pass) os.execvOk).trace ∧
      (∀ st2, (iteration os st).outcome = .ret st2 →
        (exec_cmd buf argv argc os.user (os.forkRet st.pass) os.execvOk).outcome = .ret ()) ∧
      (∀ s, (iteration os st).outcome = .exited s →
        (exec_cmd buf argv argc os.user (os.forkRet st.pass) os.execvOk).outcome = .exited s) := by
  have htr := read_cmd_trace st.buf st.stdin
  have hex := read_cmd_exited st.buf st.stdin
  unfold iteration
  rcases hrd : read_cmd st.buf st.stdin with ⟨t, o⟩
  rw [hrd] at htr hex
  simp only at htr hex
  subst htr
  cases o with
  | exited s =>
    left
    refine ⟨rfl, fun st2 => by simp [Run.bind], fun s2 h => ?_⟩
    have : s2 = s := by simpa [Run.bind] using h.symm
    rw [this]
    exact hex s rfl
  | replaced =>
    left
    exact ⟨rfl, fun st2 => by simp [Run.bind], fun s2 h => by simp [Run.bind] at h⟩
  | fault e =>
    left
    exact ⟨rfl, fun st2 => by simp [Run.bind], fun s2 h => by simp [Run.bind] at h⟩
  | ret rd =>
    cases hp : parse_cmd rd.1 st.argv with
    | error e =>
      left
      simp [Run.bind, Run.ofExcept, hp]
    | ok r =>
      right
      refine ⟨r.buf, r.argv, r.argc, ?_⟩
      rcases hx : exec_cmd r.buf r.argv r.argc os.user (os.forkRet st.pass) os.execvOk with ⟨tx, ox⟩
      cases ox <;> simp [Run.bind, Run.ofExcept, Run.pure, hp, hx]

/-! ## Exit statuses -/

theorem iteration_exited (os : Os) (st : ShellState) (s : Int)
    (h : (iteration os st).outcome = .exited s) : s = 0 := by
  rcases iteration_shape os st with ⟨_, _, h3⟩ | ⟨buf, argv, argc, _, _, h3⟩
  · exact h3 s h
  · have hx := h3 s h
    rcases exec_cmd_cases buf argv argc os.user (os.forkRet st.pass) os.execvOk with
      e | e | e | ⟨u, e⟩ | e | ⟨m, e⟩ | ⟨pa, ar, e⟩ | ⟨pa, ar, m, e⟩ | ⟨_, e⟩ <;>
    · rw [e] at hx
      simp at hx
      try exact hx.symm

theorem main_exited (n : Nat) : ∀ (os : Os) (st : ShellState) (s : Int),
    (main n os st).outcome = .exited s → s = 0 := by
  induction n with
  | zero =>
    intro os st s h
    simp [main, Run.pure] at h
  | succ n ih =>
    intro os st s h
    rw [main] at h
    rcases Run.bind_exited _ _ s h with h1 | ⟨st2, _, h2⟩
    · exact iteration_exited os st s h1
    · exact ih os st2 s h2

/-- C7: every `exit` the program reaches has status 0: `read_cmd` at
end-of-input or on a read error, `builtin_cmd` on `exit`, `Fork` when `fork`
fails, `Execv` when `execv` fails; and whatever the input and the answers of
the environment, a run of the loop that ends in `exit` ends with status 0. -/
theorem exit_status_zero :
    (∀ (buf : List Nat) (f : Bool),
      read_cmd buf ⟨[], f⟩ = ⟨[.out promptText], .exited 0⟩) ∧
    (∀ (buf : List Nat) (argv : List (Option Nat)) (p : Nat) (user : Option (List Nat)),
      argv.head? = some (some p) → cstr buf p = bytes "exit" →
      builtin_cmd buf argv user = ⟨[], .exited 0⟩) ∧
    (∀ pid : Int, pid < 0 →
      Fork pid = ⟨[.fork pid, .err (bytes "fork error... terminating shell.\n")], .exited 0⟩) ∧
    (∀ (buf : List Nat) (argv : List (Option Nat)) (p q : Nat) (ok : List Nat → Bool),
      argv.head? = some (some q) → ok (cstr buf p) = false →
      Execv buf p argv ok
        = ⟨[.execv (cstr buf p) (vectorStrings buf argv),
            .err (cstr buf q ++ bytes ": unknown command.\n")], .exited 0⟩) ∧
    (∀ (n : Nat) (os : Os) (st : ShellState) (s : Int),
      (main n os st).outcome = .exited s → s = 0) := by
  refine ⟨?_, ?_, ?_, ?_, main_exited⟩
  · intro buf f
    simp [read_cmd, fgetsChars]
  · intro buf argv p user hp h
    simp [builtin_cmd, hp, h]
  · intro pid h
    simp [Fork, h]
  · intro buf argv p q ok hq hk
    simp [Execv, hq, hk]

/-- Witness of C7: the input `"exit\n"`, and the empty input. -/
theorem exit_status_zero_witness :
    (main 1 ⟨none, fun _ => 1, fun _ => true⟩ (freshState (bytes "exit\n"))).outcome = .exited 0 ∧
    builtin_cmd (bytes "exit" ++ [0]) [some 0, none] none = ⟨[], .exited 0⟩ ∧
    Fork (-1) = ⟨[.fork (-1), .err (bytes "fork error... terminating shell.\n")], .exited 0⟩ ∧
    (∀ s : Int, (main 3 ⟨none, fun _ => 1, fun _ => true⟩ (freshState [])).outcome = .exited s →
      s = 0) :=
  ⟨by decide, exit_status_zero.2.1 _ _ 0 _ rfl (by decide), exit_status_zero.2.2.1 (-1) (by decide),
    fun s => exit_status_zero.2.2.2.2 3 _ _ s⟩

/-! ## Children outstanding along a trace -/

theorem outstanding_cons (c : Nat) (e : Event) (t : List Event) :
    outstanding c (e :: t) = outstanding (outstanding c [e]) t := by
  cases e with
  | fork pid =>
    by_cases h : 0 < pid <;> simp [outstanding, h]
  | out s => simp [outstanding]
  | err s => simp [outstanding]
  | execv pa ar => simp [outstanding]
  | wait => simp [outstanding]

theorem outstanding_append (a b : List Event) : ∀ c : Nat,
    outstanding c (a ++ b) = outstanding (outstanding c a) b := by
  induction a with
  | nil => intro c; rfl
  | cons e a ih =>
    intro c
    rw [List.cons_append, outstanding_cons, ih, ← outstanding_cons]

theorem calm_le (c : Nat) (t : List Event) (h : calm c t) : c ≤ 1 := by
  cases t with
  | nil => exact h
  | cons e t => exact h.1

theorem calm_append (a b : List Event) : ∀ c : Nat,
    calm c (a ++ b) ↔ calm c a ∧ calm (outstanding c a) b := by
  induction a with
  | nil =>
    intro c
    constructor
    · intro h
      exact ⟨calm_le c b h, h⟩
    · intro h
      exact h.2
  | cons e a ih =>
    intro c
    rw [List.cons_append, outstanding_cons]
    simp only [calm]
    rw [ih]
    tauto

theorem calm_split (c : Nat) (t t1 t2 : List Event) (h : calm c t) (e : t = t1 ++ t2) :
    outstanding c t1 ≤ 1 ∧ (t2.head? = some (.out promptText) → outstanding c t1 = 0) := by
  rw [e, calm_append] at h
  refine ⟨calm_le _ _ h.2, ?_⟩
  intro hh
  cases t2 with
  | nil => simp at hh
  | cons x t2 =>
    simp only [List.head?_cons, Option.some.injEq] at hh
    exact h.2.2.1 hh

theorem exec_cmd_calm (buf : List Nat) (argv : List (Option Nat)) (argc : Nat)
    (user : Option (List Nat)) (pid : Int) (ok : List Nat → Bool) :
    calm 0 (exec_cmd buf argv argc user pid ok).trace ∧
    ((exec_cmd buf argv argc user pid ok).outcome = .ret () →
      outstanding 0 (exec_cmd buf argv argc user pid ok).trace = 0) := by
  rcases exec_cmd_cases buf argv argc user pid ok with
    e | e | e | ⟨u, e⟩ | e | ⟨m, e⟩ | ⟨pa, ar, e⟩ | ⟨pa, ar, m, e⟩ | ⟨hpid, e⟩
  · rw [e]; simp [calm, outstanding]
  · rw [e]; simp [calm, outstanding]
  · rw [e]; simp [calm, outstanding]
  · rw [e]; simp [calm, outstanding, line_ne_prompt]
  · rw [e]; simp [calm, outstanding, helpText_ne_prompt]
  · rw [e]
    simp only [calm, outstanding]
    by_cases h : 0 < pid <;> simp [h]
  · rw [e]; simp [calm, outstanding]
  · rw [e]; simp [calm, outstanding]
  · rw [e]; simp [calm, outstanding, hpid]

theorem iteration_calm (os : Os) (st : ShellState) :
    calm 0 (iteration os st).trace ∧
    (∀ st2, (iteration os st).outcome = .ret st2 →
      outstanding 0 (iteration os st).trace = 0) := by
  rcases iteration_shape os st with ⟨h1, h2, _⟩ | ⟨buf, argv, argc, h1, h2, _⟩
  · rw [h1]
    exact ⟨by simp [calm, outstanding], fun st2 h => absurd h (h2 st2)⟩
  · have hx := exec_cmd_calm buf argv argc os.user (os.forkRet st.pass) os.execvOk
    rw [h1]
    constructor
    · simp only [calm, outstanding]
      exact ⟨by decide, fun _ => trivial, hx.1⟩
    · intro st2 h
      rw [outstanding_cons]
      exact hx.2 (h2 st2 h)

theorem main_calm (n : Nat) : ∀ (os : Os) (st : ShellState),
    calm 0 (main n os st).trace ∧
    (∀ st2, (main n os st).outcome = .ret st2 → outstanding 0 (main n os st).trace = 0) := by
  induction n with
  | zero =>
    intro os st
    simp [main, Run.pure, calm, outstanding]
  | succ n ih =>
    intro os st
    have hi := iteration_calm os st
    rw [main]
    rcases hit : iteration os st with ⟨t, o⟩
    rw [hit] at hi
    simp only at hi
    cases o with
    | ret st1 =>
      have hm := ih os st1
      have h0 := hi.2 st1 rfl
      rw [Run.bind_ret]
      simp only
      constructor
      · rw [calm_append, h0]
        exact ⟨hi.1, hm.1⟩
      · intro st2 h
        rw [outstanding_append, h0]
        exact hm.2 st2 h
    | exited s => exact ⟨hi.1, fun st2 h => by simp [Run.bind] at h⟩
    | replaced => exact ⟨hi.1, fun st2 h => by simp [Run.bind] at h⟩
    | fault e => exact ⟨hi.1, fun st2 h => by simp [Run.bind] at h⟩

/-- C10: for every argument vector with count at least 1 whose first token is
not a built-in name, when `fork` returns a child's pid `exec_cmd` makes exactly
the calls `fork` and then `wait` and returns; and in every run of the loop, at
every point of its trace at most one child has been created and not waited
for, and none at a point where the prompt is printed next. -/
theorem one_child_at_a_time :
    (∀ (buf : List Nat) (argv : List (Option Nat)) (argc p : Nat) (user : Option (List Nat))
        (pid : Int) (ok : List Nat → Bool),
      1 ≤ argc → argv.head? = some (some p) →
      cstr buf p ≠ bytes "exit" → cstr buf p ≠ bytes "whoami" → cstr buf p ≠ bytes "help" →
      0 < pid →
      exec_cmd buf argv argc user pid ok = ⟨[.fork pid, .wait], .ret ()⟩) ∧
    (∀ (n : Nat) (os : Os) (st : ShellState) (t1 t2 : List Event),
      (main n os st).trace = t1 ++ t2 →
      outstanding 0 t1 ≤ 1 ∧ (t2.head? = some (.out promptText) → outstanding 0 t1 = 0)) := by
  constructor
  · intro buf argv argc p user pid ok hc hp h1 h2 h3 hpid
    rw [exec_cmd_external buf argv argc p user pid ok hc hp h1 h2 h3]
    have h4 : ¬ pid < 0 := by omega
    have h5 : pid ≠ 0 := by omega
    simp [Fork, Run.bind, h4, h5]
  · intro n os st t1 t2 e
    exact calm_split 0 _ t1 t2 (main_calm n os st).1 e

/-- Witness of C10: two external commands in a row, `fork` answering the pids
5 and 6. -/
theorem one_child_at_a_time_witness :
    exec_cmd (bytes "/bin/ls" ++ [0, 0]) [some 0, none] 1 none 5 (fun _ => true)
      = ⟨[.fork 5, .wait], .ret ()⟩ ∧
    (main 3 ⟨none, fun n => 5 + n, fun _ => true⟩ (freshState (bytes "/bin/ls\n/bin/pwd\n"))).trace
      = [.out promptText, .fork 5, .wait] ++ [.out promptText, .fork 6, .wait, .out promptText] ∧
    outstanding 0 [.out promptText, .fork 5, .wait] = 0 :=
  ⟨one_child_at_a_time.1 (bytes "/bin/ls" ++ [0, 0]) [some 0, none] 1 0 none 5 (fun _ => true)
      (by decide) rfl (by decide) (by decide) (by decide) (by decide),
    by decide,
    (one_child_at_a_time.2 3 ⟨none, fun n => 5 + n, fun _ => true⟩
      (freshState (bytes "/bin/ls\n/bin/pwd\n")) [.out promptText, .fork 5, .wait]
      [.out promptText, .fork 6, .wait, .out promptText] (by decide)).2 rfl⟩

end Shell
